import Mathlib

/-!
Shallow embedding of the `SentimentNLP` framework (`Sentiment_NLP.py`).

Modelling conventions:
* Python strings of text are lists of code points (`List Nat`); labels and
  statistic-dictionary keys are Lean `String`s.
* Python dicts preserve insertion order, so a dict is an association list
  (`Dict K V`); assignment `d[k] = v` replaces the first binding of `k` in
  place, or appends a fresh binding at the end (`dset`).
* `self.data` is a `defaultdict(dict)`: reading a missing statistic key
  inserts an empty table for it (`ddGet`).
* `sorted(xs, key=lambda x: x[1], reverse=True)` is a stable descending sort
  by the second component; any stable sort computes the same list, so it is
  embedded as `List.insertionSort` with the relation `b.2 ≤ a.2`.
* The statistics produced by parsers (`StatVal`) are either word-count dicts
  (the payload the word-count filter operates on) or opaque values
  (sentiment dicts, raw text, custom statistics), since no embedded
  operation inspects the latter.
* External collaborators (the WordNet lemmatizer, the stop-word list) are
  parameters of `preprocess`; file contents reached through the filesystem
  are abstracted by the parser-result argument of `load_text`.
-/

set_option autoImplicit false

namespace SentimentNLP

/-! ## Insertion-ordered dictionaries -/

abbrev Dict (K V : Type) := List (K × V)

/-- First binding of key `k`, as Python dict lookup (keys are unique in any
dict actually built, but the definition does not assume it). -/
def dlookup {K V : Type} [DecidableEq K] : Dict K V → K → Option V
  | [], _ => none
  | (k1, v1) :: rest, k => if k1 = k then some v1 else dlookup rest k

/-- Python `d[k] = v`: replace the first binding of `k` keeping its position,
else append a fresh binding at the end (insertion order). -/
def dset {K V : Type} [DecidableEq K] : Dict K V → K → V → Dict K V
  | [], k, v => [(k, v)]
  | (k1, v1) :: rest, k, v =>
    if k1 = k then (k1, v) :: rest else (k1, v1) :: dset rest k v

theorem dlookup_dset_self {K V : Type} [DecidableEq K]
    (l : Dict K V) (k : K) (v : V) : dlookup (dset l k v) k = some v := by
  induction l with
  | nil => simp [dset, dlookup]
  | cons p rest ih =>
    obtain ⟨k1, v1⟩ := p
    by_cases h : k1 = k
    · simp [dset, dlookup, h]
    · simp [dset, dlookup, h, ih]

theorem dlookup_dset_ne {K V : Type} [DecidableEq K]
    (l : Dict K V) (k k2 : K) (v : V) (h : k2 ≠ k) :
    dlookup (dset l k v) k2 = dlookup l k2 := by
  induction l with
  | nil => simp [dset, dlookup, Ne.symm h]
  | cons p rest ih =>
    obtain ⟨k1, v1⟩ := p
    by_cases h1 : k1 = k
    · subst h1
      simp [dset, dlookup, Ne.symm h]
    · simp [dset, dlookup, h1, ih]

theorem dlookup_append {K V : Type} [DecidableEq K]
    (l1 l2 : Dict K V) (k : K) :
    dlookup (l1 ++ l2) k =
      match dlookup l1 k with
      | some v => some v
      | none => dlookup l2 k := by
  induction l1 with
  | nil => simp [dlookup]
  | cons p rest ih =>
    obtain ⟨k1, v1⟩ := p
    by_cases h : k1 = k
    · simp [dlookup, h]
    · simp [dlookup, h, ih]

/-- Looking a mapped dictionary up maps the looked-up value. -/
theorem dlookup_map_snd {K V W : Type} [DecidableEq K]
    (l : Dict K V) (f : K → V → W) (k : K) :
    dlookup (l.map (fun p => (p.1, f p.1 p.2))) k =
      (dlookup l k).map (fun v => f k v) := by
  induction l with
  | nil => simp [dlookup]
  | cons p rest ih =>
    obtain ⟨k1, v1⟩ := p
    by_cases h : k1 = k
    · subst h
      simp [dlookup]
    · simp [dlookup, h, ih]

/-! ## Data model -/

/-- A word of processed text, as a list of code points. -/
abbrev Word := List Nat

/-- A word-frequency dictionary, `word → count`. -/
abbrev WordCounts := Dict Word Nat

/-- A value stored under one statistic key for one label: either a
word-count dictionary (what `get_wordcount` filters) or an opaque value
(sentiment scores, raw text, custom statistics), which no embedded
operation inspects. -/
inductive StatVal : Type where
  | wc (m : WordCounts)
  | blob (tag : Nat)
  deriving DecidableEq, Repr

/-- The table stored under one statistic key: `label → value`. -/
abbrev StatTable := Dict String StatVal

/-- The state `self.data`: statistic key → (label → value), a
`defaultdict(dict)` embedded with explicit default-insertion (`ddGet`). -/
abbrev Registry := Dict String StatTable

/-- Reading `self.data[key]` on the `defaultdict`: return the stored table,
or insert (append) an empty table for a missing key and return it. -/
def ddGet (r : Registry) (key : String) : StatTable × Registry :=
  match dlookup r key with
  | some t => (t, r)
  | none => ([], r ++ [(key, [])])

theorem ddGet_found (r : Registry) (key : String) (t : StatTable)
    (h : dlookup r key = some t) : ddGet r key = (t, r) := by
  simp [ddGet, h]

theorem ddGet_missing (r : Registry) (key : String)
    (h : dlookup r key = none) : ddGet r key = ([], r ++ [(key, [])]) := by
  simp [ddGet, h]

/-- A `ddGet` read does not change any other key's binding. -/
theorem dlookup_ddGet_ne (r : Registry) (key key2 : String) (h : key2 ≠ key) :
    dlookup (ddGet r key).2 key2 = dlookup r key2 := by
  unfold ddGet
  cases hl : dlookup r key with
  | some t => simp
  | none =>
    simp only
    rw [dlookup_append]
    cases h2 : dlookup r key2 with
    | some v => simp
    | none => simp [dlookup, Ne.symm h]

/-- A `ddGet` read keeps every present binding. -/
theorem dlookup_ddGet_present (r : Registry) (key key2 : String)
    (t : StatTable) (h : dlookup r key2 = some t) :
    dlookup (ddGet r key).2 key2 = some t := by
  unfold ddGet
  cases hl : dlookup r key with
  | some u => simpa using h
  | none =>
    simp only
    rw [dlookup_append, h]

/-! ## Text processing (`preprocess`, `count`) -/

/-- Code points of a concrete string, for concrete instances. -/
def codes (s : String) : List Nat :=
  s.toList.map Char.toNat

/-- Code points matched by the regular expression class `[a-zA-Z]`. -/
def isAsciiAlpha (c : Nat) : Bool :=
  (65 ≤ c && c ≤ 90) || (97 ≤ c && c ≤ 122)

/-- Python `re.sub('[^a-zA-Z]', ' ', s)`: every character outside `[a-zA-Z]`
becomes a space (code 32). -/
def subNonAlpha (t : List Nat) : List Nat :=
  t.map (fun c => if isAsciiAlpha c then c else 32)

/-- Python `str.lower()`, restricted to the code points that can occur after
`subNonAlpha` (ASCII letters and spaces), where it shifts `A`–`Z` by 32. -/
def lowerCodes (t : List Nat) : List Nat :=
  t.map (fun c => if 65 ≤ c && c ≤ 90 then c + 32 else c)

/-- The ASCII whitespace code points recognized by Python `str.split()`. -/
def isPySpace (c : Nat) : Bool :=
  c = 32 || c = 9 || c = 10 || c = 13 || c = 11 || c = 12

/-- Helper of `splitWs`: `cur` is the reversed current token. -/
def splitWsAux : List Nat → List Nat → List Word
  | [], cur => if cur.isEmpty then [] else [cur.reverse]
  | c :: rest, cur =>
    if isPySpace c then
      if cur.isEmpty then splitWsAux rest []
      else cur.reverse :: splitWsAux rest []
    else splitWsAux rest (c :: cur)

/-- Python `str.split()` with no argument: split on whitespace runs,
discarding empty tokens. -/
def splitWs (s : List Nat) : List Word :=
  splitWsAux s []

/-- Python `' '.join(ws)`: tokens joined by single spaces. -/
def joinSp : List Word → List Nat
  | [] => []
  | [w] => w
  | w :: x :: ws => w ++ 32 :: joinSp (x :: ws)

/-- Code points that are lowercase ASCII letters. -/
def isLowerAlpha (c : Nat) : Bool :=
  97 ≤ c && c ≤ 122

/-- One iteration of the counting loop of `count`: `counts[word] += 1` when
the word is present, `counts[word] = 1` when it is absent. -/
def countStep (counts : WordCounts) (word : Word) : WordCounts :=
  match dlookup counts word with
  | some n => dset counts word (n + 1)
  | none => dset counts word 1

/-- The static method `SentimentNLP.count`: split the cleaned text on
whitespace and tally each word with a running dict. -/
def count (content : List Nat) : WordCounts :=
  (splitWs content).foldl countStep []

/-- The method `preprocess`: substitute non-letters by spaces, lowercase,
split on whitespace, drop stop-words, lemmatize each survivor, and rejoin
with single spaces. The stop-word list `sw` and the WordNet lemmatizer
`lemmatize` are external collaborators, taken as parameters. -/
def preprocess (sw : List Word) (lemmatize : Word → Word) (content : List Nat) :
    List Nat :=
  joinSp
    (((splitWs (lowerCodes (subNonAlpha content))).filter
        (fun w => decide (¬ w ∈ sw))).map lemmatize)

/-! ## Registry operations -/

/-- The method `_save_results`: for each `(statKey, value)` of the parser's
result dict, run `self.data[statKey][label] = value` (a `defaultdict` read
of the statistic key, then an in-place dict assignment at the label). -/
def save_results (r : Registry) (label : String)
    (results : Dict String StatVal) : Registry :=
  results.foldl
    (fun acc kv =>
      let p := ddGet acc kv.1
      dset p.2 kv.1 (dset p.1 label kv.2))
    r

/-- The parser argument of `load_text`: absent (`None`), a callable, or a
non-callable object (which the validation layer rejects). The callable case
carries the mapping from filename to parser-result dict; for the default
parser this abstracts the file read, `preprocess`, `count` and the
sentiment scorer. -/
inductive ParserArg : Type where
  | absent
  | callable (f : String → Dict String StatVal)
  | notCallable

/-- The error raised by the validation layer. -/
inductive PyErr : Type where
  | validationError
  deriving DecidableEq, Repr

/-- Modelled from the spec: the validation performed by `NLPError.load_text`
in the `exception_class` module, which is not under `src/`. Per the spec it
fails with `ValidationError` when `filename` is empty or absent, or when a
`parser` is supplied but is not invocable. -/
def validLoadArgs : Option String → ParserArg → Bool
  | none, _ => false
  | some _, ParserArg.notCallable => false
  | some f, _ => decide (f ≠ "")

/-- The method `load_text`: validate the arguments, obtain the result dict
from the chosen parser (`defaultParse` abstracts `_default_parser`'s work on
the file's contents), default the label to the filename, and save. On a
validation failure the error propagates before any mutation, so the
registry is returned unchanged alongside the error. -/
def load_text (r : Registry) (filename : Option String) (label : Option String)
    (parser : ParserArg) (defaultParse : String → Dict String StatVal) :
    Registry × Option PyErr :=
  if validLoadArgs filename parser then
    let fn := filename.getD ""
    let results :=
      match parser with
      | ParserArg.callable f => f fn
      | _ => defaultParse fn
    let lab := label.getD fn
    (save_results r lab results, none)
  else
    (r, some PyErr.validationError)

/-- The key comparison behind
`sorted(m.items(), key=lambda x: x[1], reverse=True)`: an entry precedes
another when its count is at least the other's. -/
def countGE (a b : Word × Nat) : Prop :=
  b.2 ≤ a.2

instance : DecidableRel countGE :=
  fun a b => Nat.decLe b.2 a.2

instance : IsTotal (Word × Nat) countGE :=
  ⟨fun a b => Nat.le_total b.2 a.2⟩

instance : IsTrans (Word × Nat) countGE :=
  ⟨fun _ _ _ h1 h2 => Nat.le_trans h2 h1⟩

/-- The top-k branch of `get_wordcount`:
`dict(sorted(m.items(), key=lambda x: x[1], reverse=True)[:k])`. Python's
sort is stable, and every stable sort computes the same output, so it is
embedded as insertion sort by descending count. -/
def topKFilter (m : WordCounts) (k : Nat) : WordCounts :=
  (List.insertionSort countGE m).take k

/-- The word-list branch of `get_wordcount`: keep the entries whose word is
a member of `word_list`, in order. -/
def memberFilter (m : WordCounts) (word_list : List Word) : WordCounts :=
  m.filter (fun kv => decide (kv.1 ∈ word_list))

/-- The transformation `get_wordcount` applies to one label's stored value.
A non-dict value would make the Python code raise; the embedding returns it
unchanged (no claim depends on that case). -/
def filterStatVal (word_list : Option (List Word)) (k : Nat) :
    StatVal → StatVal
  | StatVal.wc m =>
    match word_list with
    | none => StatVal.wc (topKFilter m k)
    | some ws => StatVal.wc (memberFilter m ws)
  | v => v

/-- The method `get_wordcount`: read `self.data["wordcount"]` (a
`defaultdict` read), replace each label's dict by its filtered version
(top-k when `word_list == None`, membership otherwise), and store the table
back under `"wordcount"`. -/
def get_wordcount (r : Registry) (word_list : Option (List Word)) (k : Nat) :
    Registry :=
  let p := ddGet r "wordcount"
  let tbl := p.1.map (fun lv => (lv.1, filterStatVal word_list k lv.2))
  dset p.2 "wordcount" tbl

/-! ## Visualization adapters (registry effect only; rendering is delegated
to external plotting libraries and returns nothing) -/

/-- Registry effect of `wordcount_sankey`: it first calls
`self.get_wordcount(word_list, k)`, then only reads the (now present)
`"wordcount"` table to build the dataframe handed to `make_sankey`. -/
def wordcount_sankey (r : Registry) (word_list : Option (List Word))
    (k : Nat) : Registry :=
  get_wordcount r word_list k

/-- Registry effect of `second_viz`: a single `defaultdict` read of
`self.data['raw_text']`; everything else feeds the word-cloud renderer. -/
def second_viz (r : Registry) : Registry :=
  (ddGet r "raw_text").2

/-- Registry effect of `third_viz`: `defaultdict` reads of
`self.data["sentiment"]`; everything else feeds the bar-chart renderer. -/
def third_viz (r : Registry) : Registry :=
  (ddGet r "sentiment").2

/-! ## Observations -/

/-- Observation of the stored statistic `self.data[key][label]`, with no
`defaultdict` side effect. -/
def statLookup (r : Registry) (key lab : String) : Option StatVal :=
  (dlookup r key).bind (fun t => dlookup t lab)

/-- What `get_wordcount` stores for a label that had a statistic under
`"wordcount"`: the filtered version of that statistic. -/
theorem get_wordcount_statLookup (r : Registry) (wl : Option (List Word))
    (k : Nat) (lab : String) (v : StatVal)
    (h : statLookup r "wordcount" lab = some v) :
    statLookup (get_wordcount r wl k) "wordcount" lab =
      some (filterStatVal wl k v) := by
  obtain ⟨tbl, htbl, hlab⟩ := Option.bind_eq_some.mp h
  unfold get_wordcount
  rw [ddGet_found r _ tbl htbl]
  simp only [statLookup, dlookup_dset_self, Option.some_bind]
  rw [dlookup_map_snd tbl (fun _ w => filterStatVal wl k w) lab, hlab]
  rfl

/-! ## Claims -/

/-- C8: `get_wordcount` mutates only the `"wordcount"` statistic: for every
registry state and every choice of word list and `k`, the table under any
other statistic key (sentiment, raw text, custom keys) is unchanged. -/
theorem get_wordcount_preserves_other_stats (r : Registry)
    (wl : Option (List Word)) (k : Nat) (key : String)
    (h : key ≠ "wordcount") :
    dlookup (get_wordcount r wl k) key = dlookup r key := by
  unfold get_wordcount
  rw [dlookup_dset_ne _ _ _ _ h, dlookup_ddGet_ne _ _ _ h]

theorem get_wordcount_preserves_other_stats_witness :
    dlookup (get_wordcount [("sentiment", [("a", StatVal.blob 3)])] none 5)
        "sentiment" =
      dlookup [("sentiment", [("a", StatVal.blob 3)])] "sentiment" :=
  get_wordcount_preserves_other_stats _ none 5 "sentiment" (by decide)

/-- C10: passing an empty word list (as opposed to leaving the parameter
unset) takes the membership branch, because the code compares the argument
with `None`; membership in the empty list always fails, so every registered
label's word-count mapping becomes empty, regardless of `k`. -/
theorem get_wordcount_empty_list_empties (r : Registry) (k : Nat)
    (lab : String) (m : WordCounts)
    (h : statLookup r "wordcount" lab = some (StatVal.wc m)) :
    statLookup (get_wordcount r (some []) k) "wordcount" lab =
      some (StatVal.wc []) := by
  rw [get_wordcount_statLookup r (some []) k lab _ h]
  simp [filterStatVal, memberFilter]

theorem get_wordcount_empty_list_empties_witness :
    statLookup
        (get_wordcount [("wordcount", [("a", StatVal.wc [([97], 2)])])]
          (some []) 7)
        "wordcount" "a" =
      some (StatVal.wc []) :=
  get_wordcount_empty_list_empties _ 7 "a" [([97], 2)] (by decide)

/-- C3: calling `get_wordcount` with a word list `W` yields, for every
registered label, a mapping whose entries are entries of the label's
original mapping with their word a member of `W` (so its key set is
contained in `W` intersected with the original keys, and each retained word
keeps its original count), and the `k` parameter has no effect. -/
theorem get_wordcount_word_list_spec (r : Registry) (W : List Word)
    (k1 k2 : Nat) (lab : String) (m : WordCounts)
    (h : statLookup r "wordcount" lab = some (StatVal.wc m)) :
    get_wordcount r (some W) k1 = get_wordcount r (some W) k2 ∧
    ∃ m2, statLookup (get_wordcount r (some W) k1) "wordcount" lab =
        some (StatVal.wc m2) ∧
      ∀ e ∈ m2, e.1 ∈ W ∧ e ∈ m := by
  constructor
  · unfold get_wordcount
    refine congrArg _ (List.map_congr_left (fun lv _ => ?_))
    obtain ⟨lab1, v1⟩ := lv
    cases v1 <;> rfl
  · refine ⟨memberFilter m W, ?_, ?_⟩
    · rw [get_wordcount_statLookup r (some W) k1 lab _ h]
      rfl
    · intro e he
      rw [memberFilter, List.mem_filter] at he
      exact ⟨by simpa using he.2, he.1⟩

theorem get_wordcount_word_list_spec_witness :
    get_wordcount [("wordcount", [("a", StatVal.wc [([120], 1), ([121], 2)])])]
        (some [[121]]) 1 =
      get_wordcount [("wordcount", [("a", StatVal.wc [([120], 1), ([121], 2)])])]
        (some [[121]]) 9 ∧
    ∃ m2,
      statLookup
          (get_wordcount
            [("wordcount", [("a", StatVal.wc [([120], 1), ([121], 2)])])]
            (some [[121]]) 1)
          "wordcount" "a" =
        some (StatVal.wc m2) ∧
      ∀ e ∈ m2, e.1 ∈ [[121]] ∧ e ∈ [([120], 1), ([121], 2)] :=
  get_wordcount_word_list_spec _ [[121]] 1 9 "a" [([120], 1), ([121], 2)]
    (by decide)

/-- C1 counterexample: the flow-diagram adapter does mutate the registry.
With six distinct words of count one stored for one label, invoking
`wordcount_sankey` with its default arguments drops an entry, because the
adapter first calls `get_wordcount`, which filters the stored word counts
in place. -/
theorem wordcount_sankey_mutates_registry :
    wordcount_sankey
        [("wordcount",
          [("a",
            StatVal.wc
              [([1], 1), ([2], 1), ([3], 1), ([4], 1), ([5], 1), ([6], 1)])])]
        none 5 ≠
      [("wordcount",
        [("a",
          StatVal.wc
            [([1], 1), ([2], 1), ([3], 1), ([4], 1), ([5], 1), ([6], 1)])])] := by
  decide

/-- C1 (amended): the word-cloud adapter (`second_viz`) and the sentiment
bar-chart adapter (`third_viz`) leave every existing registry entry
unchanged — their `defaultdict` reads can at most append an empty table
under a missing statistic key — while the flow-diagram adapter
(`wordcount_sankey`) can mutate the registry, since it first invokes
`get_wordcount`, which filters the `"wordcount"` tables in place. -/
theorem cloud_and_bar_adapters_preserve_entries (r : Registry)
    (key : String) (t : StatTable) (h : dlookup r key = some t) :
    dlookup (second_viz r) key = some t ∧
    dlookup (third_viz r) key = some t :=
  ⟨dlookup_ddGet_present r "raw_text" key t h,
   dlookup_ddGet_present r "sentiment" key t h⟩

theorem cloud_and_bar_adapters_preserve_entries_witness :
    dlookup (second_viz [("raw_text", [("a", StatVal.blob 0)])]) "raw_text" =
        some [("a", StatVal.blob 0)] ∧
    dlookup (third_viz [("raw_text", [("a", StatVal.blob 0)])]) "raw_text" =
        some [("a", StatVal.blob 0)] :=
  cloud_and_bar_adapters_preserve_entries _ "raw_text" _ (by decide)

/-- C7: registration fails with a ValidationError when the filename is
empty or absent, or when the supplied parser is not invocable; the registry
is returned unchanged, so prior registrations for other labels remain
intact. -/
theorem load_text_validation_failure (r : Registry)
    (filename : Option String) (label : Option String) (parser : ParserArg)
    (d : String → Dict String StatVal)
    (h : filename = none ∨ filename = some "" ∨
      parser = ParserArg.notCallable) :
    load_text r filename label parser d = (r, some PyErr.validationError) := by
  rcases h with h | h | h
  · subst h
    cases parser <;> simp [load_text, validLoadArgs]
  · subst h
    cases parser <;> simp [load_text, validLoadArgs]
  · subst h
    cases filename <;> simp [load_text, validLoadArgs]

theorem load_text_validation_failure_witness :
    load_text [("wordcount", [("b", StatVal.blob 1)])] (some "") none
        ParserArg.absent (fun _ => []) =
      ([("wordcount", [("b", StatVal.blob 1)])], some PyErr.validationError) :=
  load_text_validation_failure _ _ none ParserArg.absent _
    (Or.inr (Or.inl rfl))

/-! ## Registration (C4, C9) -/

theorem save_results_cons (r : Registry) (lab : String) (k0 : String)
    (v0 : StatVal) (rest : Dict String StatVal) :
    save_results r lab ((k0, v0) :: rest) =
      save_results (dset (ddGet r k0).2 k0 (dset (ddGet r k0).1 lab v0))
        lab rest :=
  rfl

/-- Saving results touches no statistic key outside the result dict. -/
theorem save_results_other_key (r : Registry) (lab : String)
    (results : Dict String StatVal) (key : String)
    (h : key ∉ results.map Prod.fst) :
    dlookup (save_results r lab results) key = dlookup r key := by
  induction results generalizing r with
  | nil => rfl
  | cons p rest ih =>
    obtain ⟨k0, v0⟩ := p
    rw [List.map_cons, List.mem_cons] at h
    push_neg at h
    rw [save_results_cons, ih _ h.2, dlookup_dset_ne _ _ _ _ h.1,
      dlookup_ddGet_ne _ _ _ h.1]

/-- Saving results stores, for the label, exactly the value each result key
carries (result dicts have unique keys, being Python dicts). -/
theorem save_results_stores (r : Registry) (lab : String)
    (results : Dict String StatVal) (key : String) (v : StatVal)
    (hnd : (results.map Prod.fst).Nodup) (hmem : (key, v) ∈ results) :
    statLookup (save_results r lab results) key lab = some v := by
  induction results generalizing r with
  | nil => simp at hmem
  | cons p rest ih =>
    obtain ⟨k0, v0⟩ := p
    rw [List.map_cons, List.nodup_cons] at hnd
    rcases List.mem_cons.mp hmem with heq | hmem2
    · cases heq
      rw [save_results_cons]
      unfold statLookup
      rw [save_results_other_key _ _ _ _ hnd.1, dlookup_dset_self]
      simp [dlookup_dset_self]
    · have hne : key ≠ k0 := by
        intro e
        exact hnd.1 (e ▸ List.mem_map.mpr ⟨(key, v), hmem2, rfl⟩)
      rw [save_results_cons]
      exact ih _ hnd.2 hmem2

/-- A `load_text` call with valid arguments and a callable parser reduces
to saving that parser's results under the given label. -/
theorem load_text_callable (r : Registry) (fn lab : String)
    (res : Dict String StatVal) (d : String → Dict String StatVal)
    (hfn : fn ≠ "") :
    load_text r (some fn) (some lab) (ParserArg.callable (fun _ => res)) d =
      (save_results r lab res, none) := by
  simp [load_text, validLoadArgs, hfn]

/-- C4 counterexample: re-registering a label does not fully replace its
statistics. The first registration stores a `"custom"` statistic; the
second registration's result dict has only `"wordcount"`, yet afterwards
the label's `"custom"` statistic still holds the first registration's
value, although `"custom"` is not a key of the second result dict. -/
theorem reregistration_full_replacement_counterexample :
    statLookup
        ((load_text
            ((load_text [] (some "f1") (some "L")
                (ParserArg.callable (fun _ =>
                  [("wordcount", StatVal.wc [([97], 1)]),
                   ("custom", StatVal.blob 7)]))
                (fun _ => [])).1)
            (some "f2") (some "L")
            (ParserArg.callable
              (fun _ => [("wordcount", StatVal.wc [([98], 2)])]))
            (fun _ => [])).1)
        "custom" "L" = some (StatVal.blob 7) ∧
    dlookup [("wordcount", StatVal.wc [([98], 2)])] "custom" = none := by
  decide

/-- C4 (amended): re-registering a label replaces its statistics per
statistic key, not wholesale: after the call, the label's stored statistic
under every key of the new result mapping equals the new parser's value
(whatever was stored before), and under every key absent from the new
result mapping the previously stored statistic is kept. -/
theorem reregistration_per_key_replacement (r1 : Registry)
    (fn2 lab : String) (res2 : Dict String StatVal)
    (d : String → Dict String StatVal)
    (h2 : fn2 ≠ "") (hnd2 : (res2.map Prod.fst).Nodup) :
    (∀ key v, (key, v) ∈ res2 →
      statLookup ((load_text r1 (some fn2) (some lab)
          (ParserArg.callable (fun _ => res2)) d).1) key lab = some v) ∧
    (∀ key, key ∉ res2.map Prod.fst →
      statLookup ((load_text r1 (some fn2) (some lab)
          (ParserArg.callable (fun _ => res2)) d).1) key lab =
        statLookup r1 key lab) := by
  rw [load_text_callable r1 fn2 lab res2 d h2]
  constructor
  · intro key v hmem
    exact save_results_stores r1 lab res2 key v hnd2 hmem
  · intro key homit
    unfold statLookup
    rw [save_results_other_key r1 lab res2 key homit]

theorem reregistration_per_key_replacement_witness :
    (∀ key v, (key, v) ∈ [("wordcount", StatVal.wc [([98], 2)])] →
      statLookup ((load_text [("custom", [("L", StatVal.blob 7)])] (some "f2")
          (some "L")
          (ParserArg.callable
            (fun _ => [("wordcount", StatVal.wc [([98], 2)])]))
          (fun _ => [])).1) key "L" = some v) ∧
    (∀ key, key ∉ ([("wordcount", StatVal.wc [([98], 2)])].map Prod.fst) →
      statLookup ((load_text [("custom", [("L", StatVal.blob 7)])] (some "f2")
          (some "L")
          (ParserArg.callable
            (fun _ => [("wordcount", StatVal.wc [([98], 2)])]))
          (fun _ => [])).1) key "L" =
        statLookup [("custom", [("L", StatVal.blob 7)])] key "L") :=
  reregistration_per_key_replacement [("custom", [("L", StatVal.blob 7)])]
    "f2" "L" [("wordcount", StatVal.wc [([98], 2)])] (fun _ => [])
    (by decide) (by decide)

/-- C9: replacement on re-registration is per statistic key. If the first
registration of a label produced a statistic key that the second parser's
result mapping omits, the label keeps its old value under that key after
the second registration; only keys present in the new result mapping are
overwritten. -/
theorem reregistration_retains_omitted_key (r : Registry)
    (fn1 fn2 lab : String) (res1 res2 : Dict String StatVal)
    (d : String → Dict String StatVal) (key : String) (v : StatVal)
    (h1 : fn1 ≠ "") (h2 : fn2 ≠ "")
    (hnd1 : (res1.map Prod.fst).Nodup) (hkey : (key, v) ∈ res1)
    (homit : key ∉ res2.map Prod.fst) :
    statLookup
        ((load_text
            ((load_text r (some fn1) (some lab)
                (ParserArg.callable (fun _ => res1)) d).1)
            (some fn2) (some lab) (ParserArg.callable (fun _ => res2)) d).1)
        key lab = some v := by
  rw [load_text_callable r fn1 lab res1 d h1,
    load_text_callable _ fn2 lab res2 d h2]
  unfold statLookup
  rw [save_results_other_key _ lab res2 key homit]
  exact save_results_stores r lab res1 key v hnd1 hkey

theorem reregistration_retains_omitted_key_witness :
    statLookup
        ((load_text
            ((load_text [] (some "f1") (some "L")
                (ParserArg.callable (fun _ =>
                  [("wordcount", StatVal.wc [([97], 1)]),
                   ("sentiment", StatVal.blob 4)]))
                (fun _ => [])).1)
            (some "f2") (some "L")
            (ParserArg.callable
              (fun _ => [("wordcount", StatVal.wc [([98], 2)])]))
            (fun _ => [])).1)
        "sentiment" "L" = some (StatVal.blob 4) :=
  reregistration_retains_omitted_key [] "f1" "f2" "L"
    [("wordcount", StatVal.wc [([97], 1)]), ("sentiment", StatVal.blob 4)]
    [("wordcount", StatVal.wc [([98], 2)])] (fun _ => [])
    "sentiment" (StatVal.blob 4) (by decide) (by decide) (by decide)
    (by decide) (by decide)

/-! ## Word counting (C5) -/

/-- Sum of the stored counts of a word-count dict. -/
def sumVals (m : WordCounts) : Nat :=
  (m.map Prod.snd).sum

theorem sumVals_dset_present (m : WordCounts) (w : Word) (n v : Nat)
    (h : dlookup m w = some n) :
    sumVals (dset m w v) + n = sumVals m + v := by
  induction m with
  | nil => simp [dlookup] at h
  | cons p rest ih =>
    obtain ⟨k1, v1⟩ := p
    by_cases hk : k1 = w
    · rw [dlookup, if_pos hk] at h
      obtain rfl : v1 = n := by injection h
      simp [dset, hk, sumVals]
      omega
    · rw [dlookup, if_neg hk] at h
      have := ih h
      simp [dset, hk, sumVals] at this ⊢
      omega

theorem sumVals_dset_absent (m : WordCounts) (w : Word) (v : Nat)
    (h : dlookup m w = none) :
    sumVals (dset m w v) = sumVals m + v := by
  induction m with
  | nil => simp [dset, sumVals]
  | cons p rest ih =>
    obtain ⟨k1, v1⟩ := p
    by_cases hk : k1 = w
    · rw [dlookup, if_pos hk] at h
      simp at h
    · rw [dlookup, if_neg hk] at h
      have := ih h
      simp [dset, hk, sumVals] at this ⊢
      omega

/-- Each loop iteration of `count` adds exactly one to the stored total. -/
theorem sumVals_countStep (m : WordCounts) (w : Word) :
    sumVals (countStep m w) = sumVals m + 1 := by
  unfold countStep
  cases h : dlookup m w with
  | some n =>
    show sumVals (dset m w (n + 1)) = sumVals m + 1
    have := sumVals_dset_present m w n (n + 1) h
    omega
  | none =>
    show sumVals (dset m w 1) = sumVals m + 1
    exact sumVals_dset_absent m w 1 h

theorem sumVals_foldl_countStep (ws : List Word) (m : WordCounts) :
    sumVals (ws.foldl countStep m) = sumVals m + ws.length := by
  induction ws generalizing m with
  | nil => simp
  | cons t ts ih =>
    rw [List.foldl_cons, ih, sumVals_countStep]
    simp
    omega

theorem dlookup_countStep_ne (m : WordCounts) (t w : Word) (h : w ≠ t) :
    dlookup (countStep m t) w = dlookup m w := by
  unfold countStep
  cases dlookup m t <;> rw [dlookup_dset_ne _ _ _ _ h]

theorem dlookup_countStep_self (m : WordCounts) (t : Word) :
    dlookup (countStep m t) t =
      some ((dlookup m t).getD 0 + 1) := by
  unfold countStep
  cases h : dlookup m t <;> simp [dlookup_dset_self]

theorem dlookup_foldl_countStep (ws : List Word) (m : WordCounts) (w : Word) :
    dlookup (ws.foldl countStep m) w =
      match dlookup m w with
      | some n => some (n + ws.count w)
      | none => if ws.count w = 0 then none else some (ws.count w) := by
  induction ws generalizing m with
  | nil => cases h : dlookup m w <;> simp [h]
  | cons t ts ih =>
    rw [List.foldl_cons, ih]
    by_cases hw : w = t
    · subst hw
      rw [dlookup_countStep_self]
      cases h : dlookup m w <;> simp [h, List.count_cons_self] <;> omega
    · rw [dlookup_countStep_ne m t w hw]
      have hc : (t :: ts).count w = ts.count w := by
        simp [List.count_cons, Ne.symm hw]
      rw [hc]

/-- C5: for every cleaned text `c`, the counts stored by `count c` sum to
the number of tokens of the whitespace split of `c` (every token counted
exactly once), and the value stored for each word equals that word's number
of occurrences among those tokens (words with no occurrence are absent). -/
theorem count_sums_and_counts (c : List Nat) :
    sumVals (count c) = (splitWs c).length ∧
    ∀ w : Word,
      dlookup (count c) w =
        if (splitWs c).count w = 0 then none
        else some ((splitWs c).count w) := by
  constructor
  · unfold count
    rw [sumVals_foldl_countStep]
    simp [sumVals]
  · intro w
    unfold count
    rw [dlookup_foldl_countStep]
    simp [dlookup]

/-! ## Preprocessing (C6) -/

/-- After the substitution and lowercasing steps, every character is a
space or a lowercase ASCII letter. -/
theorem mem_clean_chars (t : List Nat) :
    ∀ c ∈ lowerCodes (subNonAlpha t), c = 32 ∨ isLowerAlpha c = true := by
  intro c hc
  rw [lowerCodes, subNonAlpha, List.map_map] at hc
  obtain ⟨c0, _, rfl⟩ := List.mem_map.mp hc
  simp only [Function.comp_apply, isAsciiAlpha, isLowerAlpha]
  split_ifs with h1 h2 <;> simp_all

theorem isLowerAlpha_not_space (c : Nat) (h : isLowerAlpha c = true) :
    isPySpace c = false := by
  simp [isLowerAlpha] at h
  simp [isPySpace]
  omega

/-- Tokens produced by the whitespace split of a string of spaces and
lowercase letters are nonempty and made of lowercase letters only. -/
theorem splitWsAux_tokens (s : List Nat) :
    ∀ cur : List Nat,
      (∀ c ∈ s, c = 32 ∨ isLowerAlpha c = true) →
      (∀ c ∈ cur, isLowerAlpha c = true) →
      ∀ w ∈ splitWsAux s cur, w ≠ [] ∧ ∀ c ∈ w, isLowerAlpha c = true := by
  induction s with
  | nil =>
    intro cur _ hcur w hw
    rw [splitWsAux] at hw
    by_cases hc : cur.isEmpty
    · rw [if_pos hc] at hw
      simp at hw
    · rw [if_neg hc] at hw
      simp only [List.mem_singleton] at hw
      subst hw
      refine ⟨by simpa using hc, fun c hcm => hcur c (List.mem_reverse.mp hcm)⟩
  | cons c0 s2 ih =>
    intro cur hs hcur w hw
    have hs2 : ∀ c ∈ s2, c = 32 ∨ isLowerAlpha c = true :=
      fun c h => hs c (List.mem_cons_of_mem _ h)
    rw [splitWsAux] at hw
    by_cases hsp : isPySpace c0 = true
    · rw [if_pos hsp] at hw
      by_cases hc : cur.isEmpty
      · rw [if_pos hc] at hw
        exact ih [] hs2 (by simp) w hw
      · rw [if_neg hc] at hw
        rcases List.mem_cons.mp hw with hw1 | hw2
        · subst hw1
          refine ⟨by simpa using hc,
            fun c hcm => hcur c (List.mem_reverse.mp hcm)⟩
        · exact ih [] hs2 (by simp) w hw2
    · rw [if_neg hsp] at hw
      have hc0 : isLowerAlpha c0 = true := by
        rcases hs c0 (List.mem_cons_self _ _) with h32 | h
        · exact absurd (by rw [h32]; rfl) hsp
        · exact h
      refine ih (c0 :: cur) hs2 ?_ w hw
      intro c h
      rcases List.mem_cons.mp h with h1 | h2
      · exact h1 ▸ hc0
      · exact hcur c h2

/-- Splitting walks through a chunk with no whitespace by accumulating it
onto the current token. -/
theorem splitWsAux_no_space_chunk (w : List Nat) :
    ∀ rest cur : List Nat,
      (∀ c ∈ w, isPySpace c = false) →
      splitWsAux (w ++ rest) cur = splitWsAux rest (w.reverse ++ cur) := by
  induction w with
  | nil => intro rest cur _; simp
  | cons c w2 ih =>
    intro rest cur h
    have hc : isPySpace c = false := h c (List.mem_cons_self _ _)
    rw [List.cons_append, splitWsAux, if_neg (by simp [hc])]
    rw [ih rest (c :: cur) (fun d hd => h d (List.mem_cons_of_mem _ hd))]
    simp

/-- Splitting the space-joined list of nonempty whitespace-free tokens
recovers exactly those tokens. -/
theorem splitWs_joinSp : ∀ ts : List Word,
    (∀ w ∈ ts, w ≠ [] ∧ ∀ c ∈ w, isPySpace c = false) →
    splitWs (joinSp ts) = ts := by
  intro ts
  induction ts with
  | nil => intro _; rfl
  | cons w ws ih =>
    intro h
    obtain ⟨hne, hch⟩ := h w (List.mem_cons_self _ _)
    cases ws with
    | nil =>
      show splitWs (joinSp [w]) = [w]
      rw [joinSp]
      unfold splitWs
      rw [show w = w ++ ([] : List Nat) by simp,
        splitWsAux_no_space_chunk w [] [] hch, splitWsAux]
      simp [hne]
    | cons x ws2 =>
      rw [joinSp]
      unfold splitWs
      rw [splitWsAux_no_space_chunk w (32 :: joinSp (x :: ws2)) [] hch,
        splitWsAux, if_pos (show isPySpace 32 = true from rfl)]
      have hcurne : ¬ (w.reverse ++ ([] : List Nat)).isEmpty = true := by
        simpa using hne
      rw [if_neg hcurne]
      have ih2 := ih (fun u hu => h u (List.mem_cons_of_mem _ hu))
      unfold splitWs at ih2
      rw [ih2]
      simp

/-- C6: `preprocess` produces a string consisting only of nonempty
lowercase-alphabetic tokens separated by single spaces (no digits or
punctuation survive), the tokens being the lemmatized non-stop-word tokens
of the lowercased, punctuation-stripped input, in their original order.
The WordNet lemmatizer is an external collaborator: the claim holds under
the assumption that it maps nonempty lowercase-alphabetic words to nonempty
lowercase-alphabetic words. -/
theorem preprocess_tokens (sw : List Word) (lemmatize : Word → Word)
    (t : List Nat)
    (hLem : ∀ w : Word, w ≠ [] → (∀ c ∈ w, isLowerAlpha c = true) →
      lemmatize w ≠ [] ∧ ∀ c ∈ lemmatize w, isLowerAlpha c = true) :
    ∃ ts : List Word,
      preprocess sw lemmatize t = joinSp ts ∧
      ts = ((splitWs (lowerCodes (subNonAlpha t))).filter
          (fun w => decide (¬ w ∈ sw))).map lemmatize ∧
      (∀ w ∈ ts, w ≠ [] ∧ ∀ c ∈ w, isLowerAlpha c = true) ∧
      splitWs (preprocess sw lemmatize t) = ts := by
  have base : ∀ w ∈ splitWs (lowerCodes (subNonAlpha t)),
      w ≠ [] ∧ ∀ c ∈ w, isLowerAlpha c = true :=
    splitWsAux_tokens _ [] (mem_clean_chars t) (by simp)
  have good : ∀ w ∈ ((splitWs (lowerCodes (subNonAlpha t))).filter
      (fun w => decide (¬ w ∈ sw))).map lemmatize,
      w ≠ [] ∧ ∀ c ∈ w, isLowerAlpha c = true := by
    intro w hw
    obtain ⟨u, hu, rfl⟩ := List.mem_map.mp hw
    have hu2 := base u (List.mem_of_mem_filter hu)
    exact hLem u hu2.1 hu2.2
  refine ⟨_, rfl, rfl, good, ?_⟩
  show splitWs (joinSp _) = _
  apply splitWs_joinSp
  intro w hw
  have hg := good w hw
  exact ⟨hg.1, fun c hc => isLowerAlpha_not_space c (hg.2 c hc)⟩

theorem preprocess_tokens_witness :
    ∃ ts : List Word,
      preprocess [codes "the"] id (codes "The cat, 3 bats!") = joinSp ts ∧
      ts = ((splitWs (lowerCodes (subNonAlpha (codes "The cat, 3 bats!")))).filter
          (fun w => decide (¬ w ∈ [codes "the"]))).map id ∧
      (∀ w ∈ ts, w ≠ [] ∧ ∀ c ∈ w, isLowerAlpha c = true) ∧
      splitWs (preprocess [codes "the"] id (codes "The cat, 3 bats!")) = ts :=
  preprocess_tokens [codes "the"] id (codes "The cat, 3 bats!")
    (fun _ h1 h2 => ⟨h1, h2⟩)

/-! ## Top-k filtering (C2) -/

/-- C2: with no word list and positive `k`, `get_wordcount` stores, for a
label whose prior mapping has distinct words, a mapping that (i) has
`min k n` entries (`n` the prior size, so at most `k`), (ii) consists of
entries of the prior mapping — each retained word keeps its original
count —, (iii) contains only counts at least as large as every dropped
entry's count (the `k` largest), and (iv) breaks count ties by the prior
mapping's insertion order: an entry whose count equals that of a retained
entry listed after it in the prior mapping is itself retained. -/
theorem get_wordcount_topk_spec (r : Registry) (k : Nat) (lab : String)
    (m : WordCounts) (hk : 0 < k)
    (hnd : (m.map Prod.fst).Nodup)
    (h : statLookup r "wordcount" lab = some (StatVal.wc m)) :
    ∃ m2, statLookup (get_wordcount r none k) "wordcount" lab =
        some (StatVal.wc m2) ∧
      m2.length = min k m.length ∧
      (∀ e ∈ m2, e ∈ m) ∧
      (∀ e ∈ m2, ∀ e2 ∈ m, e2 ∉ m2 → e2.2 ≤ e.2) ∧
      (∀ a b : Word × Nat, [a, b].Sublist m → a.2 = b.2 →
        b ∈ m2 → a ∈ m2) := by
  have hperm : (List.insertionSort countGE m).Perm m :=
    List.perm_insertionSort countGE m
  have hnds : (List.insertionSort countGE m).Nodup :=
    hperm.nodup_iff.mpr (List.Nodup.of_map _ hnd)
  have hsplit := List.take_append_drop k (List.insertionSort countGE m)
  have hndsplit : ((List.insertionSort countGE m).take k ++
      (List.insertionSort countGE m).drop k).Nodup := by
    rw [hsplit]; exact hnds
  have hdisj := (List.nodup_append.mp hndsplit).2.2
  refine ⟨topKFilter m k, ?_, ?_, ?_, ?_, ?_⟩
  · rw [get_wordcount_statLookup r none k lab _ h]
    rfl
  · rw [topKFilter, List.length_take, List.length_insertionSort]
  · intro e he
    rw [topKFilter] at he
    exact (List.mem_insertionSort countGE).mp (List.mem_of_mem_take he)
  · intro e he e2 he2 hne2
    rw [topKFilter] at he hne2
    have hsorted : List.Sorted countGE (List.insertionSort countGE m) :=
      List.sorted_insertionSort countGE m
    have he2s : e2 ∈ List.insertionSort countGE m := hperm.mem_iff.mpr he2
    have he2drop : e2 ∈ (List.insertionSort countGE m).drop k := by
      rcases List.mem_append.mp (by rw [hsplit]; exact he2s :
          e2 ∈ (List.insertionSort countGE m).take k ++
            (List.insertionSort countGE m).drop k) with h1 | h1
      · exact absurd h1 hne2
      · exact h1
    have hpw : List.Pairwise countGE
        ((List.insertionSort countGE m).take k ++
          (List.insertionSort countGE m).drop k) := by
      rw [hsplit]; exact hsorted
    exact (List.pairwise_append.mp hpw).2.2 e he e2 he2drop
  · intro a b hab heq hbm2
    rw [topKFilter] at hbm2 ⊢
    have hr : countGE a b := le_of_eq heq.symm
    have hsub : [a, b].Sublist (List.insertionSort countGE m) :=
      List.pair_sublist_insertionSort hr hab
    rw [← hsplit] at hsub
    obtain ⟨l1, l2, hl, h1, h2⟩ := List.sublist_append_iff.mp hsub
    rcases l1 with _ | ⟨x, l1⟩
    · exfalso
      simp only [List.nil_append] at hl
      subst hl
      exact hdisj hbm2 (h2.subset (by simp))
    · rw [List.cons_append] at hl
      injection hl with hx hl2
      subst hx
      rcases l1 with _ | ⟨y, l1⟩
      · simp only [List.nil_append] at hl2
        exact List.singleton_sublist.mp h1
      · rw [List.cons_append] at hl2
        injection hl2 with hy hl3
        have hnil := List.append_eq_nil.mp hl3.symm
        rw [hnil.1] at h1
        exact h1.subset (by simp)

theorem get_wordcount_topk_spec_witness :
    ∃ m2,
      statLookup
          (get_wordcount
            [("wordcount",
              [("a", StatVal.wc [([120], 1), ([121], 2), ([122], 1)])])]
            none 2)
          "wordcount" "a" =
        some (StatVal.wc m2) ∧
      m2.length = min 2 [([120], 1), ([121], 2), ([122], 1)].length ∧
      (∀ e ∈ m2, e ∈ [([120], 1), ([121], 2), ([122], 1)]) ∧
      (∀ e ∈ m2, ∀ e2 ∈ [([120], 1), ([121], 2), ([122], 1)],
        e2 ∉ m2 → e2.2 ≤ e.2) ∧
      (∀ a b : Word × Nat,
        [a, b].Sublist [([120], 1), ([121], 2), ([122], 1)] →
        a.2 = b.2 → b ∈ m2 → a ∈ m2) :=
  get_wordcount_topk_spec
    [("wordcount", [("a", StatVal.wc [([120], 1), ([121], 2), ([122], 1)])])]
    2 "a" [([120], 1), ([121], 2), ([122], 1)]
    (by decide) (by decide) (by decide)

end SentimentNLP
